import Mathlib

/-!
Verification of the Holodex prototype (src/prototypes/holodex_prototype.rs).

Shallow embedding conventions:
* Rust `u64`/`usize` values are `Nat`, reduced modulo `2 ^ 64` exactly where the
  source performs wrapping arithmetic or a cast.
* `Vec<JsonValue>` / `Vec<(String, JsonValue)>` inside the recursive value type
  are embedded as the mutually inductive lists `JsonValueList` / `JsonFieldList`
  so that all recursion over documents is structural (kernel-reducible).
* The external XxHash64 crate and the IEEE-754 sizing arithmetic of
  `BloomFilter::new` are not code of this repository; they are modelled by
  explicit deterministic functions (`xxh64`, `bloom_raw_dims`) as documented at
  their definitions.  No theorem below depends on the particular hash values
  beyond determinism, except the concrete counterexample evaluations, whose
  structural content (which byte stream is hashed) is hash-independent.
-/

/-- Type tag byte for hashing string values (`TYPE_TAG_STRING`). -/
def TYPE_TAG_STRING : Nat := 0x01

/-- Type tag byte for hashing number values (`TYPE_TAG_NUMBER`). -/
def TYPE_TAG_NUMBER : Nat := 0x02

/-- Type tag byte for hashing bool values (`TYPE_TAG_BOOL`). -/
def TYPE_TAG_BOOL : Nat := 0x03

/-- Type tag byte for hashing null (`TYPE_TAG_NULL`). -/
def TYPE_TAG_NULL : Nat := 0x04

/-- Type tag byte for path-only (defined()) hashes (`TYPE_TAG_PATH_ONLY`). -/
def TYPE_TAG_PATH_ONLY : Nat := 0x05

/-- The simple Bloom filter of the prototype (`struct BloomFilter`):
a bit vector `bits`, the probe count `num_hashes`, and the size `size`. -/
structure BloomFilter where
  bits : List Bool
  num_hashes : Nat
  size : Nat
  deriving DecidableEq, Repr

/-- Modelled from the spec: the floating-point sizing computation of
`BloomFilter::new` (`m = ceil(-n·ln p/(ln 2)²)`, `k = ceil((m/n)·ln 2)`,
IEEE-754 f64, then `as usize`), instantiated at the fixed target false-positive
rate `p = 0.01` that `fingerprint` uses.  It is modelled in exact integer
arithmetic with `-ln 0.01/(ln 2)² ≈ 9.58505838` and `ln 2 ≈ 0.69314718`;
for `n = 0` both formulas yield `0`, matching the saturating `as usize` cast
of the f64 results (`-0.0` and `NaN`).  Only the post-clamp values
(`max · 64`, clamp to `[1,10]`, performed in integer code in the source and
embedded faithfully in `BloomFilter.new_sized`) matter for any claim. -/
def bloom_raw_dims (n : Nat) : Nat × Nat :=
  let m := (n * 958505838 + 99999999) / 100000000
  let k := (m * 69314718 + n * 100000000 - 1) / (n * 100000000)
  (m, k)

/-- The integer tail of `BloomFilter::new`, taking the raw (float-computed)
`m` and `k`: `size = m.max(64)`, `num_hashes = k.max(1).min(10)`,
`bits = bitvec![0; size]`. -/
def BloomFilter.new_sized (m k : Nat) : BloomFilter :=
  let size := max m 64
  let num_hashes := min (max k 1) 10
  { bits := List.replicate size false, num_hashes := num_hashes, size := size }

/-- `BloomFilter::new(num_elements, 0.01)` as called by `fingerprint`. -/
def BloomFilter.new01 (num_elements : Nat) : BloomFilter :=
  let d := bloom_raw_dims num_elements
  BloomFilter.new_sized d.1 d.2

/-- `BloomFilter::get_index`: double hashing `h(i) = h1 + i*h2` where
`h1 = hash as usize` (the whole 64-bit hash on the 64-bit target) and
`h2 = (hash >> 32) as usize` (the high 32 bits), with wrapping `usize`
arithmetic, reduced `% self.size`. -/
def BloomFilter.get_index (f : BloomFilter) (hash i : Nat) : Nat :=
  let h1 := hash % 2 ^ 64
  let h2 := (hash % 2 ^ 64) / 2 ^ 32
  ((h1 + (i * h2) % 2 ^ 64) % 2 ^ 64) % f.size

/-- `BloomFilter::insert`: set the bit at `get_index hash i` for every
`i in 0..num_hashes`. -/
def BloomFilter.insert (f : BloomFilter) (hash : Nat) : BloomFilter :=
  { f with
    bits := (List.range f.num_hashes).foldl
      (fun b i => b.set (f.get_index hash i) true) f.bits }

/-- `BloomFilter::contains`: true iff the bit at `get_index hash i` is set for
every `i in 0..num_hashes` (the source returns `false` on the first unset
probe bit; out-of-range indexing cannot occur for well-formed filters, and is
modelled by `getD _ false`). -/
def BloomFilter.contains (f : BloomFilter) (hash : Nat) : Bool :=
  (List.range f.num_hashes).all (fun i => f.bits.getD (f.get_index hash i) false)

mutual
/-- The JSON value model (`enum JsonValue`).  `Number` carries the 64-bit
IEEE-754 bit pattern of the `f64` (only its little-endian byte encoding is ever
observed, in `hash_pair`). -/
inductive JsonValue where
  | Null
  | Bool (b : Bool)
  | Number (bits : Nat)
  | String (s : String)
  | Array (xs : JsonValueList)
  | Object (fields : JsonFieldList)
  deriving DecidableEq, Repr

/-- `Vec<JsonValue>` embedded as an inductive list (kept mutual with
`JsonValue` so recursion over documents is structural). -/
inductive JsonValueList where
  | nil
  | cons (head : JsonValue) (tail : JsonValueList)
  deriving DecidableEq, Repr

/-- `Vec<(String, JsonValue)>` (object fields, in construction order)
embedded as an inductive list. -/
inductive JsonFieldList where
  | nil
  | cons (name : String) (value : JsonValue) (tail : JsonFieldList)
  deriving DecidableEq, Repr
end

/-- Ordinary-list view of `JsonFieldList`. -/
def JsonFieldList.toList : JsonFieldList → List (String × JsonValue)
  | JsonFieldList.nil => []
  | JsonFieldList.cons k v rest => (k, v) :: rest.toList

/-- Build a `JsonFieldList` from an ordinary list of entries. -/
def JsonFieldList.ofList : List (String × JsonValue) → JsonFieldList
  | [] => JsonFieldList.nil
  | (k, v) :: rest => JsonFieldList.cons k v (JsonFieldList.ofList rest)

/-- Build a `JsonValueList` from an ordinary list of values. -/
def JsonValueList.ofList : List JsonValue → JsonValueList
  | [] => JsonValueList.nil
  | v :: rest => JsonValueList.cons v (JsonValueList.ofList rest)

/-- The primitive test used (as an inline `match`) by `fingerprint` and by the
claims: `Null`, `Bool`, `Number` and `String` are primitive; `Array` and
`Object` are composite. -/
def isPrimitive : JsonValue → Bool
  | JsonValue.Null => true
  | JsonValue.Bool _ => true
  | JsonValue.Number _ => true
  | JsonValue.String _ => true
  | _ => false

/-- Modelled from the spec: the byte stream `path.as_bytes()` fed to the
hasher.  UTF-8 encoding is modelled by the character codes (identical on the
ASCII paths of this development); only determinism and injectivity on the
strings at hand matter, since the hash itself is modelled. -/
def strBytes (s : String) : List Nat :=
  s.data.map Char.toNat

/-- `f64::to_le_bytes` on the 64-bit pattern: 8 bytes, little-endian. -/
def leBytes8 (bits : Nat) : List Nat :=
  [bits % 256, bits / 2 ^ 8 % 256, bits / 2 ^ 16 % 256, bits / 2 ^ 24 % 256,
   bits / 2 ^ 32 % 256, bits / 2 ^ 40 % 256, bits / 2 ^ 48 % 256, bits / 2 ^ 56 % 256]

/-- Modelled from the spec: `XxHash64` with seed 0 from the external
`xxhash-rust` crate, a deterministic 64-bit hash of the byte stream written to
the hasher.  Modelled as an FNV-style fold; every theorem below is independent
of the particular mixing, and the counterexample evaluations only use that
distinct byte streams hash apart here (as they do, overwhelmingly, for real
XXH64). -/
def xxh64 (bytes : List Nat) : Nat :=
  bytes.foldl (fun acc b => (acc * 1099511628211 + b % 256) % 2 ^ 64) 14695981039346656037

/-- The tag byte and value payload written by `hash_pair` after the path bytes:
tag + UTF-8 bytes for strings, tag + 8 little-endian bytes for numbers,
tag + one byte for bools, tag alone for null, and nothing for arrays and
objects (the `_ => {}` arm). -/
def value_payload : JsonValue → List Nat
  | JsonValue.String s => TYPE_TAG_STRING :: strBytes s
  | JsonValue.Number bits => TYPE_TAG_NUMBER :: leBytes8 bits
  | JsonValue.Bool b => [TYPE_TAG_BOOL, if b then 1 else 0]
  | JsonValue.Null => [TYPE_TAG_NULL]
  | _ => []

/-- `hash_pair(path, value)`: hash of path bytes, then type tag + value bytes. -/
def hash_pair (path : String) (value : JsonValue) : Nat :=
  xxh64 (strBytes path ++ value_payload value)

/-- `hash_path_only(path)`: hash of path bytes then the `PATH_ONLY` tag. -/
def hash_path_only (path : String) : Nat :=
  xxh64 (strBytes path ++ [TYPE_TAG_PATH_ONLY])

/-- `normalize_path_segment` on character lists: a segment that starts with
`[`, ends with `]`, and whose interior is all ASCII digits becomes `[*]`;
anything else is returned unchanged. -/
def normalize_path_segment_chars (segment : List Char) : List Char :=
  if segment.head? = some '[' ∧ segment.getLast? = some ']' then
    let inner := (segment.drop 1).dropLast
    if inner.all Char.isDigit then ['[', '*', ']'] else segment
  else segment

/-- `normalize_path_segment` on strings. -/
def normalize_path_segment (segment : String) : String :=
  String.mk (normalize_path_segment_chars segment.data)

/-- The scanning state of `normalize_query_path`: the `result` and
`current_segment` buffers and the `in_bracket` flag. -/
structure NormState where
  result : List Char
  current : List Char
  in_bracket : Bool
  deriving DecidableEq, Repr

/-- The flush step of `normalize_query_path`: push `'.'` if `result` is
non-empty, then push the segment. -/
def flushSeg (res cur : List Char) : List Char :=
  if res.isEmpty then cur else res ++ '.' :: cur

/-- One character step of `normalize_query_path`'s scan, mirroring the
source `match`: `'['` flushes a non-empty current segment and enters bracket
mode with `['[']` as the new segment; `']'` appends, leaves bracket mode and
flushes through `normalize_path_segment`; `'.'` outside a bracket flushes a
non-empty current segment; every other character (including `'.'` inside a
bracket) is appended to the current segment. -/
def normStep (st : NormState) (ch : Char) : NormState :=
  if ch = '[' then
    { result := if st.current.isEmpty then st.result else flushSeg st.result st.current,
      current := ['['], in_bracket := true }
  else if ch = ']' then
    { result := st.result ++ normalize_path_segment_chars (st.current ++ [']']),
      current := [], in_bracket := false }
  else if ch = '.' ∧ st.in_bracket = false then
    { result := if st.current.isEmpty then st.result else flushSeg st.result st.current,
      current := [], in_bracket := st.in_bracket }
  else
    { st with current := st.current ++ [ch] }

/-- The final flush of `normalize_query_path` ("Handle remaining segment"). -/
def normFinish (st : NormState) : List Char :=
  if st.current.isEmpty then st.result else flushSeg st.result st.current

/-- `normalize_query_path` on character lists: scan every character, then
flush any remaining segment. -/
def normalize_chars (cs : List Char) : List Char :=
  normFinish (cs.foldl normStep { result := [], current := [], in_bracket := false })

/-- `normalize_query_path` on strings. -/
def normalize_query_path (path : String) : String :=
  String.mk (normalize_chars path.data)

/-- `hash_predicate(path, value)`: normalize the query path, then `hash_pair`. -/
def hash_predicate (path : String) (value : JsonValue) : Nat :=
  hash_pair (normalize_query_path path) value

mutual
/-- `extract_pairs_recursive`: walk the document; for each object field emit
`(path_so_far.field, value)` and recurse; for each array element emit
`(path_so_far ++ "[*]", value)` (the element index `i` of the source loop is
unused — all elements share the `[*]` path) and recurse; primitives emit
nothing themselves (they were emitted by their parent). -/
def extract_pairs_recursive : JsonValue → String → List (String × JsonValue)
  | JsonValue.Object obj, current_path => extract_obj obj current_path
  | JsonValue.Array arr, current_path => extract_arr arr current_path
  | _, _ => []

/-- The object loop of `extract_pairs_recursive`. -/
def extract_obj : JsonFieldList → String → List (String × JsonValue)
  | JsonFieldList.nil, _ => []
  | JsonFieldList.cons key val rest, current_path =>
      let new_path := if current_path = "" then key else current_path ++ "." ++ key
      ((new_path, val) :: extract_pairs_recursive val new_path) ++ extract_obj rest current_path

/-- The array loop of `extract_pairs_recursive`. -/
def extract_arr : JsonValueList → String → List (String × JsonValue)
  | JsonValueList.nil, _ => []
  | JsonValueList.cons val rest, current_path =>
      let new_path := current_path ++ "[*]"
      ((new_path, val) :: extract_pairs_recursive val new_path) ++ extract_arr rest current_path
end

/-- `extract_pairs(doc)`: all `(path, value)` observations, from the root with
the empty path. -/
def extract_pairs (doc : JsonValue) : List (String × JsonValue) :=
  extract_pairs_recursive doc ""

/-- The loop body of `fingerprint`: a primitive-valued pair contributes its
`hash_pair`; every pair contributes its `hash_path_only` (composites only
their path). -/
def fpStep (filter : BloomFilter) (pv : String × JsonValue) : BloomFilter :=
  let filter :=
    match pv.2 with
    | JsonValue.String _ | JsonValue.Number _ | JsonValue.Bool _ | JsonValue.Null =>
        filter.insert (hash_pair pv.1 pv.2)
    | _ => filter
  filter.insert (hash_path_only pv.1)

/-- `fingerprint(doc)`: a Bloom filter over `extract_pairs doc`, sized with
`n = max pairs.len() 10` at target FPR 0.01, filled by `fpStep` over all
pairs. -/
def fingerprint (doc : JsonValue) : BloomFilter :=
  let pairs := extract_pairs doc
  let num_elements := max pairs.length 10
  let filter0 := BloomFilter.new01 num_elements
  pairs.foldl fpStep filter0

/-- The Holodex index (`struct Holodex`): parallel per-document signatures and
document ids. -/
structure Holodex where
  signatures : List BloomFilter
  doc_ids : List String
  deriving DecidableEq, Repr

/-- `Holodex::build`: fingerprint every document, store signature and id at the
same position (the source loop pushing to both vectors in document order). -/
def Holodex.build (docs : List (String × JsonValue)) : Holodex :=
  { signatures := docs.map (fun d => fingerprint d.2),
    doc_ids := docs.map (fun d => d.1) }

/-- `Holodex::candidates_eq`: hash the predicate (normalizing the path), then
return the positions of all signatures containing the hash, in order. -/
def Holodex.candidates_eq (h : Holodex) (path : String) (value : JsonValue) : List Nat :=
  let hash := hash_predicate path value
  (h.signatures.enum.filter (fun p => p.2.contains hash)).map Prod.fst

/-- `Holodex::candidates_defined`: hash the path as given (`hash_path_only`
on the raw `path` — the source does not normalize here), then return the
positions of all signatures containing the hash, in order. -/
def Holodex.candidates_defined (h : Holodex) (path : String) : List Nat :=
  let hash := hash_path_only path
  (h.signatures.enum.filter (fun p => p.2.contains hash)).map Prod.fst

/-- `Holodex::doc_id`: the source indexes `self.doc_ids[idx]` (panicking out of
range); the partial indexing is modelled by `Option`. -/
def Holodex.doc_id (h : Holodex) (idx : Nat) : Option String :=
  h.doc_ids[idx]?

/-- `Holodex::len`: number of documents (length of `signatures`). -/
def Holodex.len (h : Holodex) : Nat :=
  h.signatures.length

/-- The metrics record (`struct HolodexMetrics`).  The two `f64` rate fields
are modelled as exact rationals. -/
structure HolodexMetrics where
  total_docs : Nat
  candidates : Nat
  true_matches : Nat
  false_positives : Nat
  false_positive_rate : Rat
  reduction_ratio : Rat
  deriving DecidableEq, Repr

/-- `HolodexMetrics::calculate`: `false_positives` by saturating subtraction
(`Nat` subtraction), `fpr = fp/candidates` when `candidates > 0` else `0`,
`reduction = 1 - candidates/total_docs` (f64 divisions modelled as exact
rational divisions). -/
def HolodexMetrics.calculate (total_docs candidates true_matches : Nat) : HolodexMetrics :=
  let false_positives := candidates - true_matches
  let fpr : Rat := if candidates > 0 then (false_positives : Rat) / (candidates : Rat) else 0
  let reduction : Rat := 1 - (candidates : Rat) / (total_docs : Rat)
  { total_docs := total_docs, candidates := candidates, true_matches := true_matches,
    false_positives := false_positives, false_positive_rate := fpr,
    reduction_ratio := reduction }

/-- The double-hashing probe schedule in the words of the spec (claim C4):
probe `i` is `(h1 + i·h2) mod m`, with wrapping 64-bit arithmetic. -/
def spec_probe (m h1 h2 i : Nat) : Nat :=
  ((h1 + i * h2) % 2 ^ 64) % m

/-- Bracket discipline of the documented path domain: scanning left to right,
`[` only occurs outside a bracket, `]` only inside one, and no bracket is left
open at the end.  (Dots are unconstrained.)  This is the hypothesis of the
amended idempotence claim C5. -/
def bracketScan : Bool → List Char → Bool
  | opened, [] => !opened
  | opened, c :: cs =>
      if c = '[' then !opened && bracketScan true cs
      else if c = ']' then opened && bracketScan false cs
      else bracketScan opened cs

/-- A path string has properly matched, non-nested brackets. -/
def BracketsOk (path : String) : Bool :=
  bracketScan false path.data

/-- Proof-support view of repeated bit-setting: fold `set · true` over a list
of indices (the shape of `BloomFilter.insert`'s loop). -/
def setTrues (bits : List Bool) (idxs : List Nat) : List Bool :=
  idxs.foldl (fun b i => b.set i true) bits

/-- The probe indices a hash touches in a filter: `get_index hash i` for
`i in 0..num_hashes`. -/
def probeIndices (f : BloomFilter) (hash : Nat) : List Nat :=
  (List.range f.num_hashes).map (f.get_index hash)

/-- The hashes `fpStep` inserts for one observation: the `hash_pair` when the
value is primitive, and always the `hash_path_only`. -/
def pair_hashes (pv : String × JsonValue) : List Nat :=
  (match pv.2 with
   | JsonValue.String _ | JsonValue.Number _ | JsonValue.Bool _ | JsonValue.Null =>
       [hash_pair pv.1 pv.2]
   | _ => []) ++ [hash_path_only pv.1]

/-- Well-formedness of a filter: the bit vector realizes the declared size,
and the size is positive (true of every filter `BloomFilter::new` returns,
and preserved by `insert`). -/
def BloomWF (f : BloomFilter) : Prop :=
  f.bits.length = f.size ∧ 0 < f.size

/-- A character that never ends a plain (non-bracket) segment of the
normalizer scan. -/
def PlainChar (c : Char) : Prop :=
  c ≠ '.' ∧ c ≠ '[' ∧ c ≠ ']'

/-- A character that can sit inside a bracket segment of the normalizer scan. -/
def ContentChar (c : Char) : Prop :=
  c ≠ '[' ∧ c ≠ ']'

/-- The pieces a properly bracketed path is normalized into: plain words and
bracket segments (stored by their interior). -/
inductive NItem where
  | word (w : List Char)
  | br (x : List Char)
  deriving DecidableEq, Repr

/-- Validity of a normal-form piece: words are non-empty and free of
`.`/`[`/`]`; bracket interiors are free of `[`/`]` and are not all-digit runs
(an all-digit run would already have been rewritten to `*`). -/
def ValidItem : NItem → Prop
  | NItem.word w => w ≠ [] ∧ ∀ c ∈ w, PlainChar c
  | NItem.br x => (∀ c ∈ x, ContentChar c) ∧ x.all Char.isDigit = false

/-- Append one normal-form piece to an already-rendered prefix: words join
with a dot when the prefix is non-empty (exactly `flushSeg`), bracket pieces
are appended bare. -/
def renderItem (acc : List Char) : NItem → List Char
  | NItem.word w => flushSeg acc w
  | NItem.br x => acc ++ '[' :: (x ++ [']'])

/-- Render a list of normal-form pieces into the path string they print as. -/
def render (items : List NItem) : List Char :=
  items.foldl renderItem []

/-- The character stream a piece list appends after a given prefix, where the
flag says whether the prefix is non-empty (and hence whether the first word
carries a leading dot). -/
def tailStr : Bool → List NItem → List Char
  | _, [] => []
  | ne, NItem.word w :: rest => (if ne then '.' :: w else w) ++ tailStr true rest
  | _, NItem.br x :: rest => ('[' :: (x ++ [']'])) ++ tailStr true rest

/-- Flush a pending segment into the result only when it is non-empty (the
guarded flush the normalizer performs at `[`, at `.` and at end of input). -/
def flushSegIf (res cur : List Char) : List Char :=
  if cur.isEmpty then res else flushSeg res cur

/-! ### Lemmas about repeated bit-setting -/

theorem setTrues_cons (bits : List Bool) (i : Nat) (idxs : List Nat) :
    setTrues bits (i :: idxs) = setTrues (bits.set i true) idxs := rfl

theorem setTrues_append (bits : List Bool) (I J : List Nat) :
    setTrues bits (I ++ J) = setTrues (setTrues bits I) J :=
  List.foldl_append ..

theorem length_setTrues (bits : List Bool) (idxs : List Nat) :
    (setTrues bits idxs).length = bits.length := by
  induction idxs generalizing bits with
  | nil => rfl
  | cons i idxs ih => rw [setTrues_cons, ih, List.length_set]

theorem getD_set_true_mono (bits : List Bool) (i j : Nat)
    (h : bits.getD j false = true) : (bits.set i true).getD j false = true := by
  rw [List.getD_eq_getElem?_getD] at h ⊢
  rw [List.getElem?_set]
  by_cases hij : i = j
  · subst hij
    by_cases hlen : i < bits.length
    · simp [hlen]
    · rw [List.getElem?_eq_none (Nat.le_of_not_lt hlen)] at h
      simp at h
  · simp only [hij, if_false]
    exact h

theorem getD_setTrues_mono (bits : List Bool) (idxs : List Nat) (j : Nat)
    (h : bits.getD j false = true) : (setTrues bits idxs).getD j false = true := by
  induction idxs generalizing bits with
  | nil => exact h
  | cons i idxs ih => exact ih _ (getD_set_true_mono _ _ _ h)

theorem getD_setTrues_of_mem (bits : List Bool) (idxs : List Nat) (j : Nat)
    (hj : j ∈ idxs) (hlen : j < bits.length) :
    (setTrues bits idxs).getD j false = true := by
  induction idxs generalizing bits with
  | nil => cases hj
  | cons i idxs ih =>
    rw [setTrues_cons]
    rcases List.mem_cons.mp hj with rfl | hmem
    · apply getD_setTrues_mono
      rw [List.getD_eq_getElem?_getD, List.getElem?_set_self hlen]
      rfl
    · exact ih _ hmem (by rw [List.length_set]; exact hlen)

theorem set_true_comm (l : List Bool) (i j : Nat) :
    (l.set i true).set j true = (l.set j true).set i true := by
  by_cases hij : i = j
  · subst hij
    rw [List.set_set]
  · exact List.set_comm _ _ _ hij

theorem setTrues_perm (bits : List Bool) (I J : List Nat) (hp : I.Perm J) :
    setTrues bits I = setTrues bits J := by
  haveI : RightCommutative (fun (b : List Bool) (i : Nat) => b.set i true) :=
    ⟨fun b i j => set_true_comm b i j⟩
  exact hp.foldl_eq bits

theorem setTrues_comm (bits : List Bool) (I J : List Nat) :
    setTrues (setTrues bits I) J = setTrues (setTrues bits J) I := by
  rw [← setTrues_append, ← setTrues_append]
  exact setTrues_perm _ _ _ List.perm_append_comm

/-! ### Lemmas about the Bloom filter -/

theorem bloom_ext (f g : BloomFilter) (hb : f.bits = g.bits)
    (hn : f.num_hashes = g.num_hashes) (hs : f.size = g.size) : f = g := by
  cases f
  cases g
  cases hb
  cases hn
  cases hs
  rfl

theorem insert_size (f : BloomFilter) (h : Nat) : (f.insert h).size = f.size := rfl

theorem insert_num_hashes (f : BloomFilter) (h : Nat) :
    (f.insert h).num_hashes = f.num_hashes := rfl

theorem insert_bits (f : BloomFilter) (h : Nat) :
    (f.insert h).bits = setTrues f.bits (probeIndices f h) := by
  unfold BloomFilter.insert setTrues probeIndices
  rw [List.foldl_map]

theorem length_insert_bits (f : BloomFilter) (h : Nat) :
    (f.insert h).bits.length = f.bits.length := by
  rw [insert_bits, length_setTrues]

theorem insert_wf (f : BloomFilter) (h : Nat) (hwf : BloomWF f) :
    BloomWF (f.insert h) := by
  refine ⟨?_, hwf.2⟩
  rw [length_insert_bits]
  exact hwf.1

theorem contains_eq_all (f : BloomFilter) (h : Nat) :
    f.contains h = (probeIndices f h).all (fun j => f.bits.getD j false) := by
  unfold BloomFilter.contains probeIndices
  rw [List.all_map]
  rfl

theorem probe_lt (f : BloomFilter) (hash i : Nat) (hpos : 0 < f.size) :
    f.get_index hash i < f.size :=
  Nat.mod_lt _ hpos

theorem mem_probeIndices_lt (f : BloomFilter) (hash j : Nat) (hpos : 0 < f.size)
    (hj : j ∈ probeIndices f hash) : j < f.size := by
  rcases List.mem_map.mp hj with ⟨i, _, rfl⟩
  exact probe_lt f hash i hpos

theorem contains_insert_self (f : BloomFilter) (h : Nat) (hwf : BloomWF f) :
    (f.insert h).contains h = true := by
  rw [contains_eq_all, List.all_eq_true]
  intro j hj
  have hj2 : j ∈ probeIndices f h := hj
  rw [insert_bits]
  apply getD_setTrues_of_mem _ _ _ hj2
  rw [hwf.1]
  exact mem_probeIndices_lt f h j hwf.2 hj2

theorem contains_mono (f : BloomFilter) (h h2 : Nat) (hc : f.contains h = true) :
    (f.insert h2).contains h = true := by
  rw [contains_eq_all, List.all_eq_true] at hc ⊢
  intro j hj
  have hj2 : j ∈ probeIndices f h := hj
  rw [insert_bits]
  exact getD_setTrues_mono _ _ _ (hc j hj2)

theorem insert_comm (f : BloomFilter) (h1 h2 : Nat) :
    (f.insert h1).insert h2 = (f.insert h2).insert h1 := by
  refine bloom_ext _ _ ?_ rfl rfl
  calc ((f.insert h1).insert h2).bits
      = setTrues (f.insert h1).bits (probeIndices f h2) := insert_bits ..
    _ = setTrues (setTrues f.bits (probeIndices f h1)) (probeIndices f h2) := by
        rw [insert_bits]
    _ = setTrues (setTrues f.bits (probeIndices f h2)) (probeIndices f h1) :=
        setTrues_comm ..
    _ = setTrues (f.insert h2).bits (probeIndices f h1) := by rw [insert_bits]
    _ = ((f.insert h2).insert h1).bits := (insert_bits ..).symm

theorem foldl_insert_dims (hs : List Nat) (f : BloomFilter) :
    (hs.foldl BloomFilter.insert f).size = f.size
    ∧ (hs.foldl BloomFilter.insert f).num_hashes = f.num_hashes
    ∧ (hs.foldl BloomFilter.insert f).bits.length = f.bits.length := by
  induction hs generalizing f with
  | nil => exact ⟨rfl, rfl, rfl⟩
  | cons h hs ih =>
    obtain ⟨a, b, c⟩ := ih (f.insert h)
    exact ⟨a, b, c.trans (length_insert_bits f h)⟩

theorem foldl_insert_wf (hs : List Nat) (f : BloomFilter) (hwf : BloomWF f) :
    BloomWF (hs.foldl BloomFilter.insert f) := by
  induction hs generalizing f with
  | nil => exact hwf
  | cons h hs ih => exact ih _ (insert_wf f h hwf)

theorem foldl_insert_contains_mono (hs : List Nat) (f : BloomFilter) (h : Nat)
    (hc : f.contains h = true) :
    (hs.foldl BloomFilter.insert f).contains h = true := by
  induction hs generalizing f with
  | nil => exact hc
  | cons h0 hs ih => exact ih _ (contains_mono f h h0 hc)

theorem foldl_insert_contains_of_mem (hs : List Nat) (f : BloomFilter) (h : Nat)
    (hmem : h ∈ hs) (hwf : BloomWF f) :
    (hs.foldl BloomFilter.insert f).contains h = true := by
  induction hs generalizing f with
  | nil => cases hmem
  | cons h0 hs ih =>
    rcases List.mem_cons.mp hmem with rfl | hmem2
    · exact foldl_insert_contains_mono hs _ h (contains_insert_self f h hwf)
    · exact ih (f.insert h0) hmem2 (insert_wf f h0 hwf)

/-! ### Lemmas about the fingerprint fold -/

theorem fpStep_eq (f : BloomFilter) (pv : String × JsonValue) :
    fpStep f pv = (pair_hashes pv).foldl BloomFilter.insert f := by
  obtain ⟨p, v⟩ := pv
  cases v <;> rfl

theorem fpStep_wf (f : BloomFilter) (pv : String × JsonValue) (hwf : BloomWF f) :
    BloomWF (fpStep f pv) := by
  rw [fpStep_eq]
  exact foldl_insert_wf _ _ hwf

theorem fpStep_contains_mono (f : BloomFilter) (pv : String × JsonValue) (h : Nat)
    (hc : f.contains h = true) : (fpStep f pv).contains h = true := by
  rw [fpStep_eq]
  exact foldl_insert_contains_mono _ _ _ hc

theorem fpStep_rc (f : BloomFilter) (a b : String × JsonValue) :
    fpStep (fpStep f a) b = fpStep (fpStep f b) a := by
  rw [fpStep_eq, fpStep_eq, fpStep_eq, fpStep_eq, ← List.foldl_append, ← List.foldl_append]
  haveI : RightCommutative BloomFilter.insert := ⟨insert_comm⟩
  exact List.perm_append_comm.foldl_eq f

theorem pairsFold_dims (pairs : List (String × JsonValue)) (f : BloomFilter) :
    (pairs.foldl fpStep f).size = f.size
    ∧ (pairs.foldl fpStep f).num_hashes = f.num_hashes
    ∧ (pairs.foldl fpStep f).bits.length = f.bits.length := by
  induction pairs generalizing f with
  | nil => exact ⟨rfl, rfl, rfl⟩
  | cons a rest ih =>
    obtain ⟨x, y, z⟩ := ih (fpStep f a)
    have hx : (fpStep f a).size = f.size := by
      rw [fpStep_eq]
      exact (foldl_insert_dims (pair_hashes a) f).1
    have hy : (fpStep f a).num_hashes = f.num_hashes := by
      rw [fpStep_eq]
      exact (foldl_insert_dims (pair_hashes a) f).2.1
    have hz : (fpStep f a).bits.length = f.bits.length := by
      rw [fpStep_eq]
      exact (foldl_insert_dims (pair_hashes a) f).2.2
    exact ⟨x.trans hx, y.trans hy, z.trans hz⟩

theorem pairsFold_contains_mono (pairs : List (String × JsonValue)) (f : BloomFilter)
    (h : Nat) (hc : f.contains h = true) :
    (pairs.foldl fpStep f).contains h = true := by
  induction pairs generalizing f with
  | nil => exact hc
  | cons a rest ih => exact ih _ (fpStep_contains_mono f a h hc)

theorem pairsFold_contains_of_mem (pairs : List (String × JsonValue))
    (f : BloomFilter) (pv : String × JsonValue) (h : Nat)
    (hpv : pv ∈ pairs) (hh : h ∈ pair_hashes pv) (hwf : BloomWF f) :
    (pairs.foldl fpStep f).contains h = true := by
  induction pairs generalizing f with
  | nil => cases hpv
  | cons a rest ih =>
    rcases List.mem_cons.mp hpv with rfl | hmem
    · apply pairsFold_contains_mono rest _ h
      rw [fpStep_eq]
      exact foldl_insert_contains_of_mem _ _ _ hh hwf
    · exact ih (fpStep f a) hmem (fpStep_wf f a hwf)

theorem new_sized_wf (m k : Nat) : BloomWF (BloomFilter.new_sized m k) := by
  constructor
  · show (List.replicate (max m 64) false).length = max m 64
    exact List.length_replicate ..
  · show 0 < max m 64
    exact Nat.lt_of_lt_of_le (by decide) (Nat.le_max_right m 64)

theorem new01_wf (n : Nat) : BloomWF (BloomFilter.new01 n) :=
  new_sized_wf ..

theorem fingerprint_contains (doc : JsonValue) (pv : String × JsonValue) (h : Nat)
    (hmem : pv ∈ extract_pairs doc) (hh : h ∈ pair_hashes pv) :
    (fingerprint doc).contains h = true :=
  pairsFold_contains_of_mem _ _ _ _ hmem hh (new01_wf _)

theorem hash_pair_mem_pair_hashes (p : String) (v : JsonValue)
    (hv : isPrimitive v = true) : hash_pair p v ∈ pair_hashes (p, v) := by
  cases v <;> simp_all [pair_hashes, isPrimitive]

theorem hash_path_only_mem_pair_hashes (p : String) (v : JsonValue) :
    hash_path_only p ∈ pair_hashes (p, v) := by
  cases v <;> simp [pair_hashes]

/-! ### Membership in the candidate lists -/

theorem getElem?_some_lt {α : Type} (l : List α) (i : Nat) (a : α)
    (h : l[i]? = some a) : i < l.length := by
  by_contra hn
  rw [List.getElem?_eq_none (Nat.le_of_not_lt hn)] at h
  cases h

theorem mem_enumFilterMap (sigs : List BloomFilter) (hash i : Nat) :
    i ∈ (sigs.enum.filter (fun p => p.2.contains hash)).map Prod.fst
      ↔ ∃ sig, sigs[i]? = some sig ∧ sig.contains hash = true := by
  constructor
  · intro hmem
    rcases List.mem_map.mp hmem with ⟨pr, hpr, hfst⟩
    rcases List.mem_filter.mp hpr with ⟨henum, hpred⟩
    obtain ⟨j, sig⟩ := pr
    have hj : j = i := hfst
    subst hj
    exact ⟨sig, List.mem_enum_iff_getElem?.mp henum, hpred⟩
  · rintro ⟨sig, hget, hc⟩
    apply List.mem_map.mpr
    exact ⟨(i, sig), List.mem_filter.mpr ⟨List.mem_enum_iff_getElem?.mpr hget, hc⟩, rfl⟩

/-! ### Claim C3 (code_bug evaluation) -/

/-- C3: the claim (and the repository's own test `test_query_path_normalization`)
says `normalize_query_path("items[]") == "items[]"` — empty brackets left
verbatim.  The code disagrees: the empty interior vacuously passes the
all-ASCII-digits check (`"".chars().all(is_ascii_digit)` is true), so
`normalize_path_segment("[]")` is `"[*]"` and `normalize_query_path("items[]")`
is `"items[*]"`.  This theorem evaluates the embedded code at the failing
inputs; the `[key]` part of the claim does hold. -/
theorem claim_C3_code_result :
    normalize_query_path "items[]" = "items[*]"
    ∧ normalize_path_segment "[]" = "[*]"
    ∧ normalize_path_segment "[key]" = "[key]"
    ∧ normalize_query_path "items[]" ≠ "items[]" := by decide

/-! ### Claim C4 -/

/-- C4, counterexample: the claim says probe `i` is `(h1 + i·h2) mod m` with
`h1` the low 32 bits of the hash.  For the filter `BloomFilter::new` builds at
`n = 10, p = 0.01` (`m = 96`) and `hash = 2^32`, the code's probe 0 is
`2^32 mod 96 = 64`, while the claimed formula gives
`(0 + 0·1) mod 96 = 0`: the code casts the *whole* 64-bit hash to `usize` for
`h1`, not its low 32 bits. -/
theorem claim_C4_counterexample :
    ¬ ((BloomFilter.new01 10).get_index (2 ^ 32) 0
        = ((2 ^ 32 % 2 ^ 32) + 0 * ((2 ^ 32 / 2 ^ 32) % 2 ^ 32)) % 2 ^ 64
            % (BloomFilter.new01 10).size) := by decide

/-- C4 (amended): probe schedule by double hashing with `h1` the *entire*
64-bit hash value (the `hash as usize` cast on the 64-bit target) and `h2` its
high 32 bits: for every filter, hash and probe number `i`, the probe index
used — by `insert` and `contains` alike, both of which are exactly the
fold/test over these indices — is `(h1 + i·h2) mod 2^64 mod m`, with wrapping
arithmetic. -/
theorem claim_C4_amended : ∀ (f : BloomFilter) (hash : Nat),
    (∀ i, f.get_index hash i
        = spec_probe f.size (hash % 2 ^ 64) ((hash % 2 ^ 64) / 2 ^ 32) i)
    ∧ (f.insert hash).bits = (List.range f.num_hashes).foldl
        (fun b i => b.set
          (spec_probe f.size (hash % 2 ^ 64) ((hash % 2 ^ 64) / 2 ^ 32) i) true) f.bits
    ∧ (f.insert hash).num_hashes = f.num_hashes
    ∧ (f.insert hash).size = f.size
    ∧ f.contains hash = (List.range f.num_hashes).all
        (fun i => f.bits.getD
          (spec_probe f.size (hash % 2 ^ 64) ((hash % 2 ^ 64) / 2 ^ 32) i) false) := by
  intro f hash
  have key : ∀ i, f.get_index hash i
      = spec_probe f.size (hash % 2 ^ 64) ((hash % 2 ^ 64) / 2 ^ 32) i := by
    intro i
    show (hash % 2 ^ 64 + (i * (hash % 2 ^ 64 / 2 ^ 32)) % 2 ^ 64) % 2 ^ 64 % f.size
        = (hash % 2 ^ 64 + i * (hash % 2 ^ 64 / 2 ^ 32)) % 2 ^ 64 % f.size
    rw [Nat.add_mod_mod]
  refine ⟨key, ?_, rfl, rfl, ?_⟩
  · show (List.range f.num_hashes).foldl
        (fun b i => b.set (f.get_index hash i) true) f.bits = _
    have hfun : (fun (b : List Bool) (i : Nat) => b.set (f.get_index hash i) true)
        = (fun b i => b.set
            (spec_probe f.size (hash % 2 ^ 64) ((hash % 2 ^ 64) / 2 ^ 32) i) true) := by
      funext b i
      rw [key]
    rw [hfun]
  · unfold BloomFilter.contains
    have hfun : (fun (i : Nat) => f.bits.getD (f.get_index hash i) false)
        = (fun i => f.bits.getD
            (spec_probe f.size (hash % 2 ^ 64) ((hash % 2 ^ 64) / 2 ^ 32) i) false) := by
      funext i
      rw [key]
    rw [hfun]

/-! ### Claim C7 -/

/-- C7: for all raw sizing results `m`, `k` (covering every `(n, p)` input to
the float formulae of `BloomFilter::new`) and for the whole lifetime of the
filter (any sequence `hs` of inserts), the bit-vector length equals `size`,
is at least 64, and the probe count is clamped to `1 ≤ k ≤ 10`; `insert`
never changes the size or the probe count (`contains` is read-only by
construction). -/
theorem claim_C7 : ∀ (m k : Nat) (hs : List Nat),
    64 ≤ (hs.foldl BloomFilter.insert (BloomFilter.new_sized m k)).size
    ∧ (hs.foldl BloomFilter.insert (BloomFilter.new_sized m k)).bits.length
        = (hs.foldl BloomFilter.insert (BloomFilter.new_sized m k)).size
    ∧ 1 ≤ (hs.foldl BloomFilter.insert (BloomFilter.new_sized m k)).num_hashes
    ∧ (hs.foldl BloomFilter.insert (BloomFilter.new_sized m k)).num_hashes ≤ 10
    ∧ (hs.foldl BloomFilter.insert (BloomFilter.new_sized m k)).size
        = (BloomFilter.new_sized m k).size
    ∧ (hs.foldl BloomFilter.insert (BloomFilter.new_sized m k)).num_hashes
        = (BloomFilter.new_sized m k).num_hashes := by
  intro m k hs
  obtain ⟨hsz, hnh, hlen⟩ := foldl_insert_dims hs (BloomFilter.new_sized m k)
  have h1 : (BloomFilter.new_sized m k).size = max m 64 := rfl
  have h2 : (BloomFilter.new_sized m k).num_hashes = min (max k 1) 10 := rfl
  have h3 : (BloomFilter.new_sized m k).bits.length = max m 64 := List.length_replicate ..
  refine ⟨?_, ?_, ?_, ?_, hsz, hnh⟩
  · rw [hsz, h1]
    exact Nat.le_max_right m 64
  · rw [hlen, hsz, h1, h3]
  · rw [hnh, h2]
    exact Nat.le_min.mpr ⟨Nat.le_max_right k 1, by decide⟩
  · rw [hnh, h2]
    exact Nat.min_le_right ..

/-! ### Claim C8 -/

/-- C8: `HolodexMetrics::calculate` computes `false_positives` by saturating
subtraction, i.e. `max 0 (candidates - true_matches)` over the integers; in
particular `true_matches > candidates` yields `0` rather than an underflow. -/
theorem claim_C8 : ∀ (total_docs candidates true_matches : Nat),
    ((HolodexMetrics.calculate total_docs candidates true_matches).false_positives : Int)
      = max 0 ((candidates : Int) - (true_matches : Int)) := by
  intro t c m
  show ((c - m : Nat) : Int) = max 0 ((c : Int) - (m : Int))
  omega

/-! ### Claims C1 and C2: concrete divergence evaluations -/

/-- C1, counterexample: for the one-document collection whose document is
`{"a[0]": null}`, the pair extractor emits the binding `("a[0]", Null)`, and
the query path `"a[0]"` trivially satisfies
`normalize("a[0]") = normalize("a[0]")`, so the claim requires position 0 in
`candidates_eq("a[0]", Null)`.  But the insert hashed the raw emitted path
`"a[0]"` while the query hashes the *normalized* `"a[*]"`, so the document is
missed: the claim fails when the emitted path is not a fixed point of
normalization. -/
theorem claim_C1_counterexample :
    ("a[0]", JsonValue.Null) ∈ extract_pairs
        (JsonValue.Object (JsonFieldList.cons "a[0]" JsonValue.Null JsonFieldList.nil))
    ∧ normalize_query_path "a[0]" = normalize_query_path "a[0]"
    ∧ 0 ∉ (Holodex.build
        [("d", JsonValue.Object (JsonFieldList.cons "a[0]" JsonValue.Null JsonFieldList.nil))]).candidates_eq
        "a[0]" JsonValue.Null := by decide

/-- C2: the code of `candidates_defined` hashes the query path *raw*, without
`normalize_query_path` (unlike `candidates_eq`).  For the document
`{"a": [null]}` the extractor inserts path-only hashes for `"a"` and `"a[*]"`;
the spec says `candidates_defined("a[0]")` computes
`hash_path_only(normalize("a[0]")) = hash_path_only("a[*]")` and must return
position 0, but the code hashes `"a[0]"` and returns nothing.  Probing the
already-normalized path does return the document. -/
theorem claim_C2_divergence :
    normalize_query_path "a[0]" = "a[*]"
    ∧ (Holodex.build
        [("d", JsonValue.Object (JsonFieldList.cons "a"
          (JsonValue.Array (JsonValueList.cons JsonValue.Null JsonValueList.nil))
          JsonFieldList.nil))]).candidates_defined "a[0]" = []
    ∧ (Holodex.build
        [("d", JsonValue.Object (JsonFieldList.cons "a"
          (JsonValue.Array (JsonValueList.cons JsonValue.Null JsonValueList.nil))
          JsonFieldList.nil))]).candidates_defined "a[*]" = [0]
    ∧ (Holodex.build
        [("d", JsonValue.Object (JsonFieldList.cons "a"
          (JsonValue.Array (JsonValueList.cons JsonValue.Null JsonValueList.nil))
          JsonFieldList.nil))]).candidates_defined "a" = [0] := by decide

/-! ### Claim C5, counterexample -/

/-- C5, counterexample: normalization is not idempotent on strings with
unclosed brackets: `normalize("[[") = "[.["` but
`normalize("[.[") = "[..["` — the separator dot inserted when flushing an
unterminated bracket segment is re-read *inside* a bracket on the second pass
and swallowed into the segment, producing a fresh dot each round. -/
theorem claim_C5_counterexample :
    normalize_query_path (normalize_query_path "[[") ≠ normalize_query_path "[["
    ∧ normalize_query_path "[[" = "[.["
    ∧ normalize_query_path "[.[" = "[..[" := by decide

/-! ### Claim C1 (amended) -/

/-- C1 (amended): zero false negatives for equality queries, for every query
path that normalizes *to the emitted path*: if document `i`'s extracted pairs
contain `(p, v)` with `v` primitive, then `candidates_eq q v` on the built
index contains `i` for every `q` with `normalize_query_path q = p`.  (The
original claim asked this whenever `normalize q = normalize p`; the
counterexample shows that fails when the emitted path `p` is itself not
normalization-fixed, e.g. a field literally named `"a[0]"` — the insert hashes
the raw emitted path while the query hashes its normalization.  For every
document whose emitted paths are normal — all field names free of bracketed
digit runs, as produced by the documented extractor domain — the two
statements coincide.) -/
theorem claim_C1_amended (docs : List (String × JsonValue)) (i : Nat)
    (hi : i < docs.length) (p q : String) (v : JsonValue)
    (hv : isPrimitive v = true)
    (hmem : (p, v) ∈ extract_pairs (docs.get ⟨i, hi⟩).2)
    (hq : normalize_query_path q = p) :
    i ∈ (Holodex.build docs).candidates_eq q v := by
  show i ∈ ((Holodex.build docs).signatures.enum.filter
      (fun pr => pr.2.contains (hash_predicate q v))).map Prod.fst
  apply (mem_enumFilterMap _ _ _).mpr
  refine ⟨fingerprint (docs.get ⟨i, hi⟩).2, ?_, ?_⟩
  · show (docs.map (fun d => fingerprint d.2))[i]? = _
    rw [List.getElem?_map, List.getElem?_eq_getElem hi, List.get_eq_getElem]
    rfl
  · have hhash : hash_predicate q v = hash_pair p v := by
      unfold hash_predicate
      rw [hq]
    rw [hhash]
    exact fingerprint_contains _ (p, v) _ hmem (hash_pair_mem_pair_hashes p v hv)

/-- C1 witness: a concrete instance of the amended theorem — the document
`{"title": "T"}` is found by `candidates_eq("title", String "T")`. -/
theorem claim_C1_witness :
    (("title", JsonValue.String "T") ∈ extract_pairs
        (JsonValue.Object (JsonFieldList.cons "title" (JsonValue.String "T") JsonFieldList.nil)))
    ∧ isPrimitive (JsonValue.String "T") = true
    ∧ normalize_query_path "title" = "title"
    ∧ 0 ∈ (Holodex.build [("d", JsonValue.Object
        (JsonFieldList.cons "title" (JsonValue.String "T") JsonFieldList.nil))]).candidates_eq
        "title" (JsonValue.String "T") :=
  ⟨by decide, by decide, by decide,
    claim_C1_amended
      [("d", JsonValue.Object (JsonFieldList.cons "title" (JsonValue.String "T") JsonFieldList.nil))]
      0 (by decide) "title" "title" (JsonValue.String "T")
      (by decide) (by decide) (by decide)⟩

/-! ### Claim C9 -/

/-- C9: every position returned by `candidates_eq` or `candidates_defined` is
strictly below `len()`; the `signatures` and `doc_ids` sequences built by
`Holodex::build` have equal length; hence `doc_id` at any returned position is
in bounds (its `Option` model is `isSome`, i.e. the source indexing cannot
panic). -/
theorem claim_C9 : ∀ (docs : List (String × JsonValue)) (path : String)
    (v : JsonValue) (i : Nat),
    (Holodex.build docs).signatures.length = (Holodex.build docs).doc_ids.length
    ∧ (i ∈ (Holodex.build docs).candidates_eq path v →
        i < (Holodex.build docs).len
        ∧ ((Holodex.build docs).doc_id i).isSome = true)
    ∧ (i ∈ (Holodex.build docs).candidates_defined path →
        i < (Holodex.build docs).len
        ∧ ((Holodex.build docs).doc_id i).isSome = true) := by
  intro docs path v i
  have hlen1 : (Holodex.build docs).signatures.length = docs.length := List.length_map ..
  have hlen2 : (Holodex.build docs).doc_ids.length = docs.length := List.length_map ..
  have hsome : i < (Holodex.build docs).len → ((Holodex.build docs).doc_id i).isSome = true := by
    intro hlt
    unfold Holodex.doc_id
    rw [List.getElem?_eq_getElem (by rw [hlen2, ← hlen1]; exact hlt)]
    rfl
  refine ⟨hlen1.trans hlen2.symm, ?_, ?_⟩
  · intro hmem
    obtain ⟨sig, hget, _⟩ := (mem_enumFilterMap (Holodex.build docs).signatures
      (hash_predicate path v) i).mp hmem
    have hlt := getElem?_some_lt _ _ _ hget
    exact ⟨hlt, hsome hlt⟩
  · intro hmem
    obtain ⟨sig, hget, _⟩ := (mem_enumFilterMap (Holodex.build docs).signatures
      (hash_path_only path) i).mp hmem
    have hlt := getElem?_some_lt _ _ _ hget
    exact ⟨hlt, hsome hlt⟩

/-- C9 witness: concrete instance — position 0 returned for `{"title": "T"}`
is below `len` and its `doc_id` lookup succeeds. -/
theorem claim_C9_witness :
    0 < (Holodex.build [("d", JsonValue.Object
        (JsonFieldList.cons "title" (JsonValue.String "T") JsonFieldList.nil))]).len
    ∧ ((Holodex.build [("d", JsonValue.Object
        (JsonFieldList.cons "title" (JsonValue.String "T") JsonFieldList.nil))]).doc_id 0).isSome
        = true :=
  (claim_C9 [("d", JsonValue.Object
      (JsonFieldList.cons "title" (JsonValue.String "T") JsonFieldList.nil))]
    "title" (JsonValue.String "T") 0).2.1 (by decide)

/-! ### Claim C10 -/

theorem getD_replicate_false (n i : Nat) :
    (List.replicate n false).getD i false = false := by
  rw [List.getD_eq_getElem?_getD, List.getElem?_replicate]
  split <;> rfl

/-- C10: a document whose root value is a primitive yields no observations
(`extract_pairs = []`); its fingerprint is the fresh 10-element filter with no
bits set, whose `contains` is false for every hash (the probe count is at
least 1 and every probed bit is unset); hence that document's position never
appears in any `candidates_eq` or `candidates_defined` result, wherever it
sits in the collection. -/
theorem claim_C10 : ∀ (v : JsonValue), isPrimitive v = true →
    extract_pairs v = []
    ∧ (∀ hash, (fingerprint v).contains hash = false)
    ∧ ∀ (pre post : List (String × JsonValue)) (id qpath : String) (qv : JsonValue),
        pre.length ∉ (Holodex.build (pre ++ (id, v) :: post)).candidates_eq qpath qv
        ∧ pre.length ∉ (Holodex.build (pre ++ (id, v) :: post)).candidates_defined qpath := by
  intro v hv
  have hpairs : extract_pairs v = [] := by
    cases v <;> first | rfl | simp [isPrimitive] at hv
  have hfp : fingerprint v = BloomFilter.new01 10 := by
    show (extract_pairs v).foldl fpStep
        (BloomFilter.new01 (max (extract_pairs v).length 10)) = _
    rw [hpairs]
    rfl
  have hcontains : ∀ hash, (fingerprint v).contains hash = false := by
    intro hash
    rw [hfp, contains_eq_all, List.all_eq_false]
    refine ⟨(BloomFilter.new01 10).get_index hash 0, ?_, ?_⟩
    · exact List.mem_map.mpr ⟨0, List.mem_range.mpr (by decide), rfl⟩
    · show ¬ ((BloomFilter.new01 10).bits.getD _ false = true)
      have hbits : (BloomFilter.new01 10).bits = List.replicate (max 96 64) false := rfl
      rw [hbits, getD_replicate_false]
      decide
  have hsig : ∀ (pre post : List (String × JsonValue)) (id : String),
      (Holodex.build (pre ++ (id, v) :: post)).signatures[pre.length]?
        = some (fingerprint v) := by
    intro pre post id
    show (List.map (fun d => fingerprint d.2) (pre ++ (id, v) :: post))[pre.length]? = _
    rw [List.getElem?_map, List.getElem?_append_right (Nat.le_refl _), Nat.sub_self]
    simp
  refine ⟨hpairs, hcontains, ?_⟩
  intro pre post id qpath qv
  constructor
  · intro hmem
    obtain ⟨sig, hget, hcont⟩ := (mem_enumFilterMap _ (hash_predicate qpath qv) _).mp hmem
    rw [hsig pre post id] at hget
    cases hget
    rw [hcontains] at hcont
    cases hcont
  · intro hmem
    obtain ⟨sig, hget, hcont⟩ := (mem_enumFilterMap _ (hash_path_only qpath) _).mp hmem
    rw [hsig pre post id] at hget
    cases hget
    rw [hcontains] at hcont
    cases hcont

/-- C10 witness: concrete instance at the primitive root `Null`, placed after
one real document. -/
theorem claim_C10_witness :
    isPrimitive JsonValue.Null = true
    ∧ extract_pairs JsonValue.Null = []
    ∧ (fingerprint JsonValue.Null).contains 12345 = false
    ∧ 1 ∉ (Holodex.build [("d", JsonValue.Object
          (JsonFieldList.cons "title" (JsonValue.String "T") JsonFieldList.nil)),
        ("e", JsonValue.Null)]).candidates_eq "title" (JsonValue.String "T")
    ∧ 1 ∉ (Holodex.build [("d", JsonValue.Object
          (JsonFieldList.cons "title" (JsonValue.String "T") JsonFieldList.nil)),
        ("e", JsonValue.Null)]).candidates_defined "title" :=
  ⟨by decide,
   (claim_C10 JsonValue.Null (by decide)).1,
   (claim_C10 JsonValue.Null (by decide)).2.1 12345,
   ((claim_C10 JsonValue.Null (by decide)).2.2
     [("d", JsonValue.Object (JsonFieldList.cons "title" (JsonValue.String "T") JsonFieldList.nil))]
     [] "e" "title" (JsonValue.String "T")).1,
   ((claim_C10 JsonValue.Null (by decide)).2.2
     [("d", JsonValue.Object (JsonFieldList.cons "title" (JsonValue.String "T") JsonFieldList.nil))]
     [] "e" "title" (JsonValue.String "T")).2⟩

/-! ### Claim C6 -/

theorem extract_obj_ofList (l : List (String × JsonValue)) (cp : String) :
    extract_obj (JsonFieldList.ofList l) cp
      = l.flatMap (fun kv =>
          ((if cp = "" then kv.1 else cp ++ "." ++ kv.1), kv.2)
            :: extract_pairs_recursive kv.2
                (if cp = "" then kv.1 else cp ++ "." ++ kv.1)) := by
  induction l with
  | nil => rfl
  | cons kv rest ih =>
    obtain ⟨k, v⟩ := kv
    show ((if cp = "" then k else cp ++ "." ++ k), v)
          :: extract_pairs_recursive v (if cp = "" then k else cp ++ "." ++ k)
          ++ extract_obj (JsonFieldList.ofList rest) cp = _
    rw [List.flatMap_cons, ih]

theorem extract_pairs_object_perm (l₁ l₂ : List (String × JsonValue))
    (hp : l₁.Perm l₂) :
    (extract_pairs (JsonValue.Object (JsonFieldList.ofList l₁))).Perm
      (extract_pairs (JsonValue.Object (JsonFieldList.ofList l₂))) := by
  show (extract_obj (JsonFieldList.ofList l₁) "").Perm
      (extract_obj (JsonFieldList.ofList l₂) "")
  rw [extract_obj_ofList, extract_obj_ofList]
  exact hp.flatMap_right _

theorem pairsFold_perm (pairs₁ pairs₂ : List (String × JsonValue))
    (hp : pairs₁.Perm pairs₂) (f : BloomFilter) :
    pairs₁.foldl fpStep f = pairs₂.foldl fpStep f := by
  haveI : RightCommutative fpStep := ⟨fpStep_rc⟩
  exact hp.foldl_eq f

/-- C6: object field order does not affect fingerprints — permuting the
top-level field list of an object yields a bit-for-bit identical signature
(the whole `BloomFilter` structure, hence same bit-vector length, probe count
and set bits), and consequently the built index is identical wherever the
document appears, so every `candidates_eq` / `candidates_defined` query is
unable to distinguish the two documents. -/
theorem claim_C6 : ∀ (l₁ l₂ : List (String × JsonValue)), l₁.Perm l₂ →
    fingerprint (JsonValue.Object (JsonFieldList.ofList l₁))
      = fingerprint (JsonValue.Object (JsonFieldList.ofList l₂))
    ∧ ∀ (pre post : List (String × JsonValue)) (id : String),
        Holodex.build (pre ++ (id, JsonValue.Object (JsonFieldList.ofList l₁)) :: post)
          = Holodex.build (pre ++ (id, JsonValue.Object (JsonFieldList.ofList l₂)) :: post) := by
  intro l₁ l₂ hp
  have hper := extract_pairs_object_perm l₁ l₂ hp
  have hfp : fingerprint (JsonValue.Object (JsonFieldList.ofList l₁))
      = fingerprint (JsonValue.Object (JsonFieldList.ofList l₂)) := by
    show (extract_pairs (JsonValue.Object (JsonFieldList.ofList l₁))).foldl fpStep
        (BloomFilter.new01
          (max (extract_pairs (JsonValue.Object (JsonFieldList.ofList l₁))).length 10)) = _
    rw [hper.length_eq]
    exact pairsFold_perm _ _ hper _
  refine ⟨hfp, ?_⟩
  intro pre post id
  simp [Holodex.build, List.map_append, hfp]

/-- C6 witness: a concrete two-field object and its reversal produce the same
fingerprint. -/
theorem claim_C6_witness :
    ([(("a" : String), JsonValue.Null), ("b", JsonValue.Bool true)]).Perm
        [("b", JsonValue.Bool true), ("a", JsonValue.Null)]
    ∧ fingerprint (JsonValue.Object (JsonFieldList.ofList
          [("a", JsonValue.Null), ("b", JsonValue.Bool true)]))
        = fingerprint (JsonValue.Object (JsonFieldList.ofList
          [("b", JsonValue.Bool true), ("a", JsonValue.Null)])) :=
  ⟨List.Perm.swap _ _ _,
   (claim_C6 [("a", JsonValue.Null), ("b", JsonValue.Bool true)]
      [("b", JsonValue.Bool true), ("a", JsonValue.Null)] (List.Perm.swap _ _ _)).1⟩

/-! ### Claim C5: infrastructure for the amended idempotence proof -/

theorem isEmpty_false_of_ne_nil {α : Type} {l : List α} (h : l ≠ []) :
    l.isEmpty = false := by
  cases l with
  | nil => exact absurd rfl h
  | cons a as => rfl

theorem flushSeg_ne_nil (res w : List Char) (hw : w ≠ []) : flushSeg res w ≠ [] := by
  unfold flushSeg
  split
  · exact hw
  · intro h
    cases res <;> cases h

theorem flushSegIf_nil (res : List Char) : flushSegIf res [] = res := rfl

theorem flushSegIf_of_ne (res w : List Char) (hw : w ≠ []) :
    flushSegIf res w = flushSeg res w := by
  unfold flushSegIf
  rw [if_neg]
  intro h
  exact hw (List.isEmpty_iff.mp h)

theorem flushSegIf_ne_nil (res w : List Char) (h : res ≠ [] ∨ w ≠ []) :
    flushSegIf res w ≠ [] := by
  by_cases hw : w = []
  · subst hw
    rw [flushSegIf_nil]
    rcases h with h | h
    · exact h
    · exact absurd rfl h
  · rw [flushSegIf_of_ne _ _ hw]
    exact flushSeg_ne_nil _ _ hw

theorem normFinish_state (res w : List Char) :
    normFinish ⟨res, w, false⟩ = flushSegIf res w := rfl

theorem foldl_normStep_plain : ∀ (w : List Char), (∀ c ∈ w, PlainChar c) →
    ∀ (res cur : List Char),
    List.foldl normStep ⟨res, cur, false⟩ w = ⟨res, cur ++ w, false⟩ := by
  intro w
  induction w with
  | nil =>
    intro _ res cur
    simp
  | cons c w ih =>
    intro hw res cur
    have hc : PlainChar c := hw c (List.mem_cons_self ..)
    have hstep : normStep ⟨res, cur, false⟩ c = ⟨res, cur ++ [c], false⟩ := by
      unfold normStep
      rw [if_neg hc.2.1, if_neg hc.2.2, if_neg (fun h => hc.1 h.1)]
    rw [List.foldl_cons, hstep,
      ih (fun c2 hc2 => hw c2 (List.mem_cons_of_mem _ hc2)) res (cur ++ [c])]
    simp

theorem foldl_normStep_content : ∀ (x : List Char), (∀ c ∈ x, ContentChar c) →
    ∀ (res cur : List Char),
    List.foldl normStep ⟨res, cur, true⟩ x = ⟨res, cur ++ x, true⟩ := by
  intro x
  induction x with
  | nil =>
    intro _ res cur
    simp
  | cons c x ih =>
    intro hx res cur
    have hc : ContentChar c := hx c (List.mem_cons_self ..)
    have hstep : normStep ⟨res, cur, true⟩ c = ⟨res, cur ++ [c], true⟩ := by
      unfold normStep
      rw [if_neg hc.1, if_neg hc.2, if_neg (fun h => by cases h.2)]
    rw [List.foldl_cons, hstep,
      ih (fun c2 hc2 => hx c2 (List.mem_cons_of_mem _ hc2)) res (cur ++ [c])]
    simp

theorem normSeg_bracket (x : List Char) :
    normalize_path_segment_chars ('[' :: (x ++ [']']))
      = if x.all Char.isDigit then ['[', '*', ']'] else '[' :: (x ++ [']']) := by
  unfold normalize_path_segment_chars
  have hhead : ('[' :: (x ++ [']'])).head? = some '[' := rfl
  have hlast : ('[' :: (x ++ [']'])).getLast? = some ']' := by
    show (('[' :: x) ++ [']']).getLast? = some ']'
    exact List.getLast?_concat _
  have hinner : (('[' :: (x ++ [']'])).drop 1).dropLast = x := by
    show (x ++ [']']).dropLast = x
    exact List.dropLast_concat
  rw [if_pos ⟨hhead, hlast⟩, hinner]

theorem render_append (items : List NItem) (it : NItem) :
    render (items ++ [it]) = renderItem (render items) it := by
  unfold render
  rw [List.foldl_append]
  rfl

theorem valid_append_word (items : List NItem) (w : List Char)
    (hv : ∀ it ∈ items, ValidItem it) (hne : w ≠ []) (hw : ∀ c ∈ w, PlainChar c) :
    ∀ it ∈ items ++ [NItem.word w], ValidItem it := by
  intro it hit
  rcases List.mem_append.mp hit with h | h
  · exact hv it h
  · rcases List.mem_singleton.mp h with rfl
    exact ⟨hne, hw⟩

theorem valid_append_br (items : List NItem) (x : List Char)
    (hv : ∀ it ∈ items, ValidItem it) (hx : ∀ c ∈ x, ContentChar c)
    (hd : x.all Char.isDigit = false) :
    ∀ it ∈ items ++ [NItem.br x], ValidItem it := by
  intro it hit
  rcases List.mem_append.mp hit with h | h
  · exact hv it h
  · rcases List.mem_singleton.mp h with rfl
    exact ⟨hx, hd⟩

theorem flag_true_iff (res w : List Char) :
    (!res.isEmpty || !w.isEmpty) = true ↔ (res ≠ [] ∨ w ≠ []) := by
  cases res <;> cases w <;> simp

theorem flag_false_iff (res w : List Char) :
    (!res.isEmpty || !w.isEmpty) = false ↔ (res = [] ∧ w = []) := by
  cases res <;> cases w <;> simp

theorem runTail : ∀ (items : List NItem), (∀ it ∈ items, ValidItem it) →
    ∀ (res w : List Char), (∀ c ∈ w, PlainChar c) →
    normFinish (List.foldl normStep ⟨res, w, false⟩
        (tailStr (!res.isEmpty || !w.isEmpty) items))
      = flushSegIf res w ++ tailStr (!res.isEmpty || !w.isEmpty) items := by
  intro items
  induction items with
  | nil =>
    intro _ res w _
    show normFinish ⟨res, w, false⟩ = flushSegIf res w ++ []
    rw [List.append_nil]
    rfl
  | cons it rest ih =>
    intro hv res w hw
    have hvrest : ∀ i2 ∈ rest, ValidItem i2 := fun i2 h => hv i2 (List.mem_cons_of_mem _ h)
    cases it with
    | word w2 =>
      obtain ⟨hw2ne, hw2p⟩ : w2 ≠ [] ∧ ∀ c ∈ w2, PlainChar c := hv _ (List.mem_cons_self ..)
      have hw2e : w2.isEmpty = false := isEmpty_false_of_ne_nil hw2ne
      by_cases hne : (!res.isEmpty || !w.isEmpty) = true
      · rw [hne]
        show normFinish (List.foldl normStep ⟨res, w, false⟩
            (('.' :: w2) ++ tailStr true rest))
          = flushSegIf res w ++ (('.' :: w2) ++ tailStr true rest)
        rw [List.foldl_append, List.foldl_cons]
        have hdot : normStep ⟨res, w, false⟩ '.' = ⟨flushSegIf res w, [], false⟩ := rfl
        rw [hdot, foldl_normStep_plain w2 hw2p (flushSegIf res w) [], List.nil_append]
        have hres2 : flushSegIf res w ≠ [] :=
          flushSegIf_ne_nil res w ((flag_true_iff res w).mp hne)
        have hih := ih hvrest (flushSegIf res w) w2 hw2p
        have hflag2 : (!(flushSegIf res w).isEmpty || !w2.isEmpty) = true := by
          rw [hw2e]
          simp
        rw [hflag2] at hih
        rw [hih, flushSegIf_of_ne _ _ hw2ne]
        unfold flushSeg
        rw [if_neg (by rw [isEmpty_false_of_ne_nil hres2]; exact Bool.false_ne_true)]
        simp
      · have hff : (!res.isEmpty || !w.isEmpty) = false := by
          cases hb : (!res.isEmpty || !w.isEmpty)
          · rfl
          · exact absurd hb hne
        obtain ⟨hrnil, hwnil⟩ := (flag_false_iff res w).mp hff
        subst hrnil
        subst hwnil
        rw [hff]
        show normFinish (List.foldl normStep ⟨[], [], false⟩ (w2 ++ tailStr true rest))
          = flushSegIf [] [] ++ (w2 ++ tailStr true rest)
        rw [List.foldl_append, foldl_normStep_plain w2 hw2p [] [], List.nil_append]
        have hih := ih hvrest [] w2 hw2p
        have hflag2 : (!([] : List Char).isEmpty || !w2.isEmpty) = true := by
          rw [hw2e]
          simp
        rw [hflag2] at hih
        rw [hih, flushSegIf_of_ne _ _ hw2ne]
        show flushSeg [] w2 ++ tailStr true rest = [] ++ (w2 ++ tailStr true rest)
        unfold flushSeg
        simp
    | br x =>
      obtain ⟨hxc, hxd⟩ : (∀ c ∈ x, ContentChar c) ∧ x.all Char.isDigit = false :=
        hv _ (List.mem_cons_self ..)
      have htail : tailStr (!res.isEmpty || !w.isEmpty) (NItem.br x :: rest)
          = ('[' :: (x ++ [']'])) ++ tailStr true rest := by
        cases (!res.isEmpty || !w.isEmpty) <;> rfl
      rw [htail]
      rw [List.foldl_append, List.foldl_cons]
      have hopen : normStep ⟨res, w, false⟩ '[' = ⟨flushSegIf res w, ['['], true⟩ := rfl
      rw [hopen, List.foldl_append, foldl_normStep_content x hxc (flushSegIf res w) ['[']]
      have hclose : List.foldl normStep ⟨flushSegIf res w, ['['] ++ x, true⟩ [']']
          = ⟨flushSegIf res w ++ normalize_path_segment_chars ('[' :: (x ++ [']'])), [], false⟩ := rfl
      rw [hclose, normSeg_bracket, if_neg (by rw [hxd]; exact Bool.false_ne_true)]
      have hres3 : flushSegIf res w ++ ('[' :: (x ++ [']'])) ≠ [] := by
        simp
      have hih := ih hvrest (flushSegIf res w ++ ('[' :: (x ++ [']']))) []
        (fun c h => absurd h (List.not_mem_nil c))
      have hflag2 : (!(flushSegIf res w ++ ('[' :: (x ++ [']']))).isEmpty
          || !([] : List Char).isEmpty) = true := by
        rw [isEmpty_false_of_ne_nil hres3]
        rfl
      rw [hflag2] at hih
      rw [hih, flushSegIf_nil]
      simp

theorem render_eq_tailStr : ∀ (items : List NItem), (∀ it ∈ items, ValidItem it) →
    ∀ (acc : List Char),
    List.foldl renderItem acc items = acc ++ tailStr (!acc.isEmpty) items := by
  intro items
  induction items with
  | nil =>
    intro _ acc
    simp [tailStr]
  | cons it rest ih =>
    intro hv acc
    have hvrest : ∀ i2 ∈ rest, ValidItem i2 := fun i2 h => hv i2 (List.mem_cons_of_mem _ h)
    cases it with
    | word w =>
      obtain ⟨hne, _⟩ : w ≠ [] ∧ ∀ c ∈ w, PlainChar c := hv _ (List.mem_cons_self ..)
      rw [List.foldl_cons]
      show List.foldl renderItem (flushSeg acc w) rest = _
      rw [ih hvrest (flushSeg acc w),
        isEmpty_false_of_ne_nil (flushSeg_ne_nil _ _ hne)]
      by_cases hacc : acc = []
      · subst hacc
        show flushSeg [] w ++ tailStr true rest = _
        unfold flushSeg
        simp [tailStr]
      · rw [isEmpty_false_of_ne_nil hacc]
        show flushSeg acc w ++ tailStr true rest
            = acc ++ tailStr true (NItem.word w :: rest)
        unfold flushSeg
        rw [if_neg (by rw [isEmpty_false_of_ne_nil hacc]; exact Bool.false_ne_true)]
        show acc ++ '.' :: w ++ tailStr true rest = acc ++ (('.' :: w) ++ tailStr true rest)
        simp
    | br x =>
      rw [List.foldl_cons]
      show List.foldl renderItem (acc ++ '[' :: (x ++ [']'])) rest = _
      rw [ih hvrest (acc ++ '[' :: (x ++ [']'])),
        isEmpty_false_of_ne_nil (by simp : acc ++ '[' :: (x ++ [']']) ≠ [])]
      have htail : tailStr (!acc.isEmpty) (NItem.br x :: rest)
          = ('[' :: (x ++ [']'])) ++ tailStr true rest := by
        cases (!acc.isEmpty) <;> rfl
      rw [htail]
      simp

theorem normalize_chars_render (items : List NItem) (hv : ∀ it ∈ items, ValidItem it) :
    normalize_chars (render items) = render items := by
  have hrender : render items = tailStr false items := by
    have h := render_eq_tailStr items hv []
    simpa [render] using h
  rw [hrender]
  have h2 := runTail items hv [] [] (fun c h => absurd h (List.not_mem_nil c))
  exact h2

theorem bracketScan_cons (opened : Bool) (c : Char) (cs : List Char) :
    bracketScan opened (c :: cs)
      = if c = '[' then !opened && bracketScan true cs
        else if c = ']' then opened && bracketScan false cs
        else bracketScan opened cs := rfl

theorem scan_run : ∀ (cs : List Char) (flag : Bool) (items : List NItem),
    (∀ it ∈ items, ValidItem it) →
    ∀ (st : NormState),
    ((flag = false ∧ ∃ w, (∀ c ∈ w, PlainChar c) ∧ st = ⟨render items, w, false⟩)
      ∨ (flag = true ∧ ∃ x, (∀ c ∈ x, ContentChar c) ∧ st = ⟨render items, '[' :: x, true⟩)) →
    bracketScan flag cs = true →
    ∃ items2, (∀ it ∈ items2, ValidItem it)
      ∧ normFinish (List.foldl normStep st cs) = render items2 := by
  intro cs
  induction cs with
  | nil =>
    intro flag items hv st hinv hscan
    have hflag : flag = false := by
      cases flag
      · rfl
      · cases hscan
    subst hflag
    rcases hinv with ⟨_, w, hw, rfl⟩ | ⟨htrue, _⟩
    · by_cases hwnil : w = []
      · subst hwnil
        exact ⟨items, hv, rfl⟩
      · refine ⟨items ++ [NItem.word w], valid_append_word items w hv hwnil hw, ?_⟩
        show flushSegIf (render items) w = render (items ++ [NItem.word w])
        rw [render_append, flushSegIf_of_ne _ _ hwnil]
        rfl
    · cases htrue
  | cons c cs ih =>
    intro flag items hv st hinv hscan
    by_cases hc1 : c = '['
    · subst hc1
      have hsplit : (!flag && bracketScan true cs) = true := by
        have : bracketScan flag ('[' :: cs) = (!flag && bracketScan true cs) := by
          rw [bracketScan_cons, if_pos rfl]
        rw [← this]
        exact hscan
      obtain ⟨hnf, hscan2⟩ := Bool.and_eq_true_iff.mp hsplit
      have hflag : flag = false := by
        cases flag
        · rfl
        · cases hnf
      subst hflag
      rcases hinv with ⟨_, w, hw, rfl⟩ | ⟨htrue, _⟩
      · have hstep : normStep ⟨render items, w, false⟩ '['
            = ⟨flushSegIf (render items) w, ['['], true⟩ := rfl
        rw [List.foldl_cons, hstep]
        by_cases hwnil : w = []
        · subst hwnil
          exact ih true items hv _
            (Or.inr ⟨rfl, [], fun c h => absurd h (List.not_mem_nil c), rfl⟩) hscan2
        · have hupd : flushSegIf (render items) w = render (items ++ [NItem.word w]) := by
            rw [render_append, flushSegIf_of_ne _ _ hwnil]
            rfl
          rw [hupd]
          exact ih true (items ++ [NItem.word w])
            (valid_append_word items w hv hwnil hw) _
            (Or.inr ⟨rfl, [], fun c h => absurd h (List.not_mem_nil c), rfl⟩) hscan2
      · cases htrue
    · by_cases hc2 : c = ']'
      · subst hc2
        have hsplit : (flag && bracketScan false cs) = true := by
          have : bracketScan flag (']' :: cs) = (flag && bracketScan false cs) := by
            rw [bracketScan_cons, if_neg (by decide), if_pos rfl]
          rw [← this]
          exact hscan
        obtain ⟨hf, hscan2⟩ := Bool.and_eq_true_iff.mp hsplit
        have hflag : flag = true := hf
        subst hflag
        rcases hinv with ⟨hfalse, _⟩ | ⟨_, x, hx, rfl⟩
        · cases hfalse
        · have hstep : List.foldl normStep ⟨render items, '[' :: x, true⟩ (']' :: cs)
              = List.foldl normStep
                  ⟨render items ++ normalize_path_segment_chars ('[' :: (x ++ [']'])),
                   [], false⟩ cs := rfl
          rw [hstep, normSeg_bracket]
          by_cases hd : x.all Char.isDigit = true
          · rw [if_pos hd]
            have hupd : render items ++ ['[', '*', ']']
                = render (items ++ [NItem.br ['*']]) := by
              rw [render_append]
              rfl
            rw [hupd]
            exact ih false (items ++ [NItem.br ['*']])
              (valid_append_br items ['*'] hv
                (by intro c h; rcases List.mem_singleton.mp h with rfl; exact ⟨by decide, by decide⟩)
                (by decide)) _
              (Or.inl ⟨rfl, [], fun c h => absurd h (List.not_mem_nil c), rfl⟩) hscan2
          · rw [if_neg hd]
            have hdf : x.all Char.isDigit = false := by
              cases hb : x.all Char.isDigit
              · rfl
              · exact absurd hb hd
            have hupd : render items ++ '[' :: (x ++ [']'])
                = render (items ++ [NItem.br x]) := by
              rw [render_append]
              rfl
            rw [hupd]
            exact ih false (items ++ [NItem.br x])
              (valid_append_br items x hv hx hdf) _
              (Or.inl ⟨rfl, [], fun c h => absurd h (List.not_mem_nil c), rfl⟩) hscan2
      · have hscan2 : bracketScan flag cs = true := by
          have : bracketScan flag (c :: cs) = bracketScan flag cs := by
            rw [bracketScan_cons, if_neg hc1, if_neg hc2]
          rw [← this]
          exact hscan
        by_cases hc3 : c = '.'
        · subst hc3
          rcases hinv with ⟨hflag, w, hw, rfl⟩ | ⟨hflag, x, hx, rfl⟩
          · have hstep : normStep ⟨render items, w, false⟩ '.'
                = ⟨flushSegIf (render items) w, [], false⟩ := rfl
            rw [List.foldl_cons, hstep]
            subst hflag
            by_cases hwnil : w = []
            · subst hwnil
              exact ih false items hv _
                (Or.inl ⟨rfl, [], fun c h => absurd h (List.not_mem_nil c), rfl⟩) hscan2
            · have hupd : flushSegIf (render items) w = render (items ++ [NItem.word w]) := by
                rw [render_append, flushSegIf_of_ne _ _ hwnil]
                rfl
              rw [hupd]
              exact ih false (items ++ [NItem.word w])
                (valid_append_word items w hv hwnil hw) _
                (Or.inl ⟨rfl, [], fun c h => absurd h (List.not_mem_nil c), rfl⟩) hscan2
          · have hstep : normStep ⟨render items, '[' :: x, true⟩ '.'
                = ⟨render items, '[' :: (x ++ ['.']), true⟩ := rfl
            rw [List.foldl_cons, hstep]
            subst hflag
            refine ih true items hv _ (Or.inr ⟨rfl, x ++ ['.'], ?_, rfl⟩) hscan2
            intro c hc
            rcases List.mem_append.mp hc with h | h
            · exact hx c h
            · rcases List.mem_singleton.mp h with rfl
              exact ⟨by decide, by decide⟩
        · rcases hinv with ⟨hflag, w, hw, rfl⟩ | ⟨hflag, x, hx, rfl⟩
          · have hstep : normStep ⟨render items, w, false⟩ c
                = ⟨render items, w ++ [c], false⟩ := by
              unfold normStep
              rw [if_neg hc1, if_neg hc2, if_neg (fun h => hc3 h.1)]
            rw [List.foldl_cons, hstep]
            subst hflag
            refine ih false items hv _ (Or.inl ⟨rfl, w ++ [c], ?_, rfl⟩) hscan2
            intro c2 hc
            rcases List.mem_append.mp hc with h | h
            · exact hw c2 h
            · rcases List.mem_singleton.mp h with rfl
              exact ⟨hc3, hc1, hc2⟩
          · have hstep : normStep ⟨render items, '[' :: x, true⟩ c
                = ⟨render items, '[' :: (x ++ [c]), true⟩ := by
              unfold normStep
              rw [if_neg hc1, if_neg hc2, if_neg (fun h => by cases h.2)]
              rfl
            rw [List.foldl_cons, hstep]
            subst hflag
            refine ih true items hv _ (Or.inr ⟨rfl, x ++ [c], ?_, rfl⟩) hscan2
            intro c2 hc
            rcases List.mem_append.mp hc with h | h
            · exact hx c2 h
            · rcases List.mem_singleton.mp h with rfl
              exact ⟨hc1, hc2⟩

/-- C5 (amended): path normalization is idempotent on every input whose
brackets are properly matched and non-nested — every `[` closed by a later
`]` before any further `[`, and every `]` closing an open `[`
(`BracketsOk`); leading dots, consecutive dots, empty input and arbitrary
segment characters are all still covered.  The counterexample shows the
original unrestricted claim fails on unclosed brackets (`"[["`), and
stray `]` after dotted words fails similarly (`normalize("a.b.c]") = "a.bc]"`
but `normalize("a.bc]") = "abc]"`), so the bracket discipline is exactly what
the counterexamples force. -/
theorem claim_C5_amended : ∀ (p : String), BracketsOk p = true →
    normalize_query_path (normalize_query_path p) = normalize_query_path p := by
  intro p hbr
  obtain ⟨items2, hv2, heq⟩ :=
    scan_run p.data false [] (fun it h => absurd h (List.not_mem_nil it))
      ⟨[], [], false⟩
      (Or.inl ⟨rfl, [], fun c h => absurd h (List.not_mem_nil c), rfl⟩) hbr
  show String.mk (normalize_chars (String.mk (normalize_chars p.data)).data)
      = String.mk (normalize_chars p.data)
  have hdata : (String.mk (normalize_chars p.data)).data = normalize_chars p.data := rfl
  have heq2 : normalize_chars p.data = render items2 := heq
  rw [hdata, heq2, normalize_chars_render items2 hv2]

/-- C5 witness: a concrete instance of the amended theorem on a properly
bracketed path with an index and a dotted tail. -/
theorem claim_C5_witness :
    BracketsOk "a[0].b" = true
    ∧ normalize_query_path (normalize_query_path "a[0].b")
        = normalize_query_path "a[0].b" :=
  ⟨by decide, claim_C5_amended "a[0].b" (by decide)⟩
